import Mathlib

/-! # Verification of the video-trimmer batch pipeline

Shallow embedding of the server's processing pipeline (the two near-duplicate
Express variants: the local stream-copy server and the `/tmp` re-encode
variant).  Strings are modelled as `List Char`; JavaScript numbers (durations
and cut amounts, which the server obtains from `parseFloat` and `ffprobe`) are
modelled as exact rationals `ℚ`; filesystem paths are modelled as lists of
path components.  Each definition is a direct transcription of the named
source location.
-/

namespace VideoTrimmer

/-! ## Character classes (JavaScript semantics) -/

/-- ASCII whitespace as recognised by JavaScript `String.prototype.trim` and
the leading-whitespace skip of `parseInt` (space and the control whitespace
characters TAB..CR). -/
def isSpaceChar (c : Char) : Bool :=
  c.toNat = 32 || (9 ≤ c.toNat && c.toNat ≤ 13)

/-- Decimal digit characters `0`..`9`. -/
def isDigitChar (c : Char) : Bool :=
  48 ≤ c.toNat && c.toNat ≤ 57

/-- The character for a single decimal digit value (only values `0`..`9`
are ever used). -/
def digitChar : Nat → Char
  | 0 => '0'
  | 1 => '1'
  | 2 => '2'
  | 3 => '3'
  | 4 => '4'
  | 5 => '5'
  | 6 => '6'
  | 7 => '7'
  | 8 => '8'
  | _ => '9'

/-- Numeric value of a digit string, most significant digit first. -/
def digitsToNat (l : List Char) : Nat :=
  l.foldl (fun a c => a * 10 + (c.toNat - 48)) 0

/-- Decimal digits of `n`, with explicit fuel so the definition is
structurally recursive (the fuel is always sufficient: `n < fuel`). -/
def natReprAux : Nat → Nat → List Char
  | 0, _ => []
  | fuel + 1, n =>
    if n < 10 then [digitChar n]
    else natReprAux fuel (n / 10) ++ [digitChar (n % 10)]

/-- Decimal representation of a natural number, as JavaScript renders an
integer inside a template literal. -/
def natRepr (n : Nat) : List Char := natReprAux (n + 1) n

/-! ## Generic list scanning used by several JS string operations -/

/-- Does `p` occur at the head of `s`?  (Used to model regex matching at a
fixed position.) -/
def listStartsWith {α : Type} [DecidableEq α] : List α → List α → Bool
  | [], _ => true
  | _ :: _, [] => false
  | p :: ps, c :: cs => p = c && listStartsWith ps cs

/-- Does `pat` occur contiguously anywhere in `s`?  Models
`/pat/.test(s)` for a literal pattern. -/
def containsSeq {α : Type} [DecidableEq α] (pat : List α) : List α → Bool
  | [] => listStartsWith pat []
  | c :: cs => listStartsWith pat (c :: cs) || containsSeq pat cs

/-- JavaScript `s.split(sep)` for a single-character separator: the list
of (possibly empty) chunks between occurrences of `sep`. -/
def splitOn (sep : Char) : List Char → List (List Char)
  | [] => [[]]
  | c :: cs =>
    if c = sep then [] :: splitOn sep cs
    else
      match splitOn sep cs with
      | [] => [[c]]
      | p :: ps => (c :: p) :: ps

/-- JavaScript `s.replace(/pat/, "")` for a literal pattern: remove the
first (leftmost) occurrence of `pat`, leave `s` unchanged when there is
none. -/
def replaceFirst (pat : List Char) : List Char → List Char
  | [] => []
  | c :: cs =>
    if listStartsWith pat (c :: cs) then (c :: cs).drop pat.length
    else c :: replaceFirst pat cs

/-! ## JavaScript string primitives used by the server -/

/-- JavaScript `String.prototype.trim`: strip leading and trailing whitespace. -/
def jsTrim (s : List Char) : List Char :=
  ((s.dropWhile isSpaceChar).reverse.dropWhile isSpaceChar).reverse

/-- JavaScript `parseInt(s, 10)`: skip leading whitespace, accept an optional sign,
then read the maximal run of leading decimal digits; `none` models `NaN`
(no digits at all). -/
def jsParseInt (s : List Char) : Option Int :=
  match s.dropWhile isSpaceChar with
  | [] => none
  | c :: rest =>
    if c = '-' then (leadingNat rest).map (fun n => -(n : Int))
    else if c = '+' then (leadingNat rest).map (fun n => (n : Int))
    else (leadingNat (c :: rest)).map (fun n => (n : Int))
where
  /-- The maximal run of leading digits, `none` when there is none. -/
  leadingNat (l : List Char) : Option Nat :=
    let ds := l.takeWhile isDigitChar
    if ds = [] then none else some (digitsToNat ds)

/-! ## JavaScript path primitives

`path.extname` from Node, and a component-level model of `path.join` with
its `..`-normalisation, used by the session/output-path construction. -/

/-- Last index of `c` in `l`, if any. -/
def lastIndexOf (c : Char) : List Char → Option Nat
  | [] => none
  | x :: xs =>
    match lastIndexOf c xs with
    | some j => some (j + 1)
    | none => if x = c then some 0 else none

/-- The basename: the part of the path after the last `/`
(`splitOn` never returns an empty list, so `getLastD` never falls back). -/
def lastComponent (name : List Char) : List Char :=
  (splitOn '/' name).getLastD []

/-- Node `path.extname`: the suffix of the basename from its last dot,
empty when the basename has no dot, when the only dot is the leading dot of
a hidden file, or for the special name `..`. -/
def extname (name : List Char) : List Char :=
  let base := lastComponent name
  if base = ['.', '.'] then []
  else
    match lastIndexOf '.' base with
    | none => []
    | some 0 => []
    | some k => base.drop k

/-! ## TrimPlanner (both deployed variants)

`src/api/index.js` lines 194-200 compute the absolute end time and skip the
file when `endTime <= trimStartSeconds`; the stream-copy variants
(`src/api/index.js` lines 509-515 and the local server lines 138-144)
compute `newDuration = duration - trimStart - trimEnd` and skip when
`newDuration <= 0`.  Each planner returns the retained absolute time
interval as a pair `(start, end)` (the executor receives `-ss start` with
either `-to end` or a duration of `end - start`), or `none` when the file
is skipped as too short to trim. -/

/-- Re-encode variant: `endTime = videoDuration - trimEndSeconds`,
rejected when `endTime <= trimStartSeconds`; the engine is invoked with
`-ss trimStart -to endTime`, retaining `[trimStart, endTime)`. -/
def trimPlanEndTime (videoDuration trimStart trimEnd : ℚ) : Option (ℚ × ℚ) :=
  let endTime := videoDuration - trimEnd
  if endTime ≤ trimStart then none
  else some (trimStart, endTime)

/-- Stream-copy variant: `newDuration = videoDuration - trimStart - trimEnd`,
rejected when `newDuration <= 0`; the engine is invoked with `-ss trimStart`
and duration `newDuration`, retaining `[trimStart, trimStart + newDuration)`. -/
def trimPlanNewDuration (videoDuration trimStart trimEnd : ℚ) : Option (ℚ × ℚ) :=
  let newDuration := videoDuration - trimStart - trimEnd
  if newDuration ≤ 0 then none
  else some (trimStart, trimStart + newDuration)

/-! ## Output naming (`POST /api/process`) -/

/-- The sanitised output base name:
`const trimmedBaseName = outputBaseName ? outputBaseName.trim() : '';`
`const baseName = trimmedBaseName || 'trimmed';`
(`none` models an absent `outputBaseName` field; the empty string is falsy
in both tests). -/
def computeBaseName (outputBaseName : Option (List Char)) : List Char :=
  let trimmedBaseName :=
    match outputBaseName with
    | none => []
    | some s => if s = [] then [] else jsTrim s
  if trimmedBaseName = [] then "trimmed".toList else trimmedBaseName

/-- Source line `const originalExt = path.extname(file.originalName) || '.mp4';`
(the empty string is the only falsy string). -/
def originalExtOf (originalName : List Char) : List Char :=
  if extname originalName = [] then ".mp4".toList else extname originalName

/-- Source line `const outputFileName = `${baseName}_${i + 1}${originalExt}`;`
where `i` is the 0-based loop index. -/
def outputFileName (baseName : List Char) (i : Nat) (originalName : List Char) :
    List Char :=
  baseName ++ '_' :: natRepr (i + 1) ++ originalExtOf originalName

/-! ## BatchOrchestrator (`POST /api/process` sequential loop)

The per-file environment (whether the upload path still exists, what
`ffprobe` reports, whether the ffmpeg invocation succeeds) is passed in
explicitly; the loop body is a direct transcription of the `for` loop.
`continue` becomes a recursive call that leaves the accumulator unchanged,
and a rejected promise (`ffprobe` error, ffmpeg `error` event) becomes an
exception that escapes the loop: the surrounding `try` block turns it into
an overall 500 response, modelled by `Except.error`. -/

/-- One input file of a process request together with its scripted
environment: `uploadExists` models `fs.pathExists(uploadPath)`,
`probeResult` the `ffprobe` outcome (`none` is a probe error), and
`encodeOk` the terminal event of the ffmpeg transform. -/
structure InputFile where
  originalName : List Char
  uploadExists : Bool
  probeResult : Option ℚ
  encodeOk : Bool
  deriving DecidableEq, Repr

/-- An entry of the `processedFiles` result array. -/
structure ProcessedFile where
  originalName : List Char
  fileName : List Char
  deriving DecidableEq, Repr

/-- The error escaping the batch loop (caught by the route handler and
turned into a 500 response). -/
inductive BatchError where
  | probeError
  | encodeError
  deriving DecidableEq, Repr

/-- The sequential loop of `POST /api/process` (identical control flow in
all server variants; the feasibility test is written here in the
re-encode form of `src/api/index.js` lines 194-200, proven equal to the
stream-copy form in `trimPlan_variants_agree` below). -/
def processFilesAux (trimStart trimEnd : ℚ) (baseName : List Char) :
    Nat → List InputFile → List ProcessedFile →
    Except BatchError (List ProcessedFile)
  | _, [], acc => .ok acc
  | i, f :: rest, acc =>
    if f.uploadExists = false then
      processFilesAux trimStart trimEnd baseName (i + 1) rest acc
    else
      match f.probeResult with
      | none => .error .probeError
      | some videoDuration =>
        match trimPlanEndTime videoDuration trimStart trimEnd with
        | none => processFilesAux trimStart trimEnd baseName (i + 1) rest acc
        | some _ =>
          if f.encodeOk then
            processFilesAux trimStart trimEnd baseName (i + 1) rest
              (acc ++ [⟨f.originalName, outputFileName baseName i f.originalName⟩])
          else .error .encodeError

/-- The whole batch: index starts at 0, accumulator empty; on success the
route responds 200 with the accumulated list. -/
def processFiles (trimStart trimEnd : ℚ) (baseName : List Char)
    (files : List InputFile) : Except BatchError (List ProcessedFile) :=
  processFilesAux trimStart trimEnd baseName 0 files []

/-- A file on which the loop raises rather than skipping: it exists on disk
and either probing fails, or the trim is feasible but the encode fails. -/
def hardFails (trimStart trimEnd : ℚ) (f : InputFile) : Bool :=
  f.uploadExists &&
    (f.probeResult.isNone ||
      match f.probeResult with
      | none => false
      | some d => (trimPlanEndTime d trimStart trimEnd).isSome && !f.encodeOk)

/-! ## RangeFileServer (`GET /api/output/:sessionId/:filename`)

Model of the handler body after the existence check, for a file of
`fileSize` bytes.  JavaScript `NaN` (the result of `parseInt` on a
digit-free string) is modelled as `none`, and arithmetic on it propagates
`none`. -/

/-- NaN-propagating subtraction and addition on JS numbers. -/
def jsSub (a b : Option Int) : Option Int :=
  match a, b with
  | some x, some y => some (x - y)
  | _, _ => none

def jsAdd (a b : Option Int) : Option Int :=
  match a, b with
  | some x, some y => some (x + y)
  | _, _ => none

/-- The response of the output-file route: a 200 full-file download (with
`Content-Length`, `Content-Disposition: attachment`) or a 206 slice with
`Content-Range: bytes rangeStart-rangeEnd/total`, `Accept-Ranges: bytes`
and `Content-Length: contentLength` (the stream is created with the
inclusive byte positions `rangeStart`/`rangeEnd`). -/
inductive ServeResult where
  | fullFile (contentLength : Nat) (attachment : Bool)
  | rangeSlice (rangeStart rangeEnd : Option Int) (total : Nat)
      (contentLength : Option Int) (acceptRanges : Bool)
  deriving DecidableEq, Repr

/-- Handler body of `GET /api/output/...` (`src/api/index.js` lines 63-89): an absent
or empty (falsy) `Range` header serves the whole file; otherwise the header
is parsed with `range.replace(/bytes=/, "").split("-")` and
`parseInt(parts[k], 10)`, and a 206 is always emitted, whatever the parse
produced. -/
def serveOutput (fileSize : Nat) (range : Option (List Char)) : ServeResult :=
  match range with
  | none => .fullFile fileSize true
  | some r =>
    if r = [] then .fullFile fileSize true
    else
      let parts := splitOn '-' (replaceFirst "bytes=".toList r)
      let start := jsParseInt (parts.getD 0 [])
      let stop :=
        if parts.getD 1 [] = [] then some ((fileSize : Int) - 1)
        else jsParseInt (parts.getD 1 [])
      .rangeSlice start stop fileSize (jsAdd (jsSub stop start) (some 1)) true

/-- The literal header `bytes=a-b`. -/
def mkRangeHeader (a b : Nat) : List Char :=
  "bytes=".toList ++ natRepr a ++ '-' :: natRepr b

/-- The literal header `bytes=a-` (open ended). -/
def mkOpenRangeHeader (a : Nat) : List Char :=
  "bytes=".toList ++ natRepr a ++ ['-']

/-! ## Upload filter (multer `fileFilter`, identical in all variants) -/

/-- The regex `/mp4|mov|avi|mkv|webm/`. -/
def allowedTypeWords : List (List Char) :=
  ["mp4".toList, "mov".toList, "avi".toList, "mkv".toList, "webm".toList]

/-- Model of `allowedTypes.test(s)`: does any alternative of the regex occur as a
contiguous substring of `s`? -/
def testAllowed (s : List Char) : Bool :=
  allowedTypeWords.any (fun w => containsSeq w s)

/-- Model of `fileFilter`: accept exactly when both
`allowedTypes.test(path.extname(file.originalname).toLowerCase())` and
`allowedTypes.test(file.mimetype)` hold; otherwise the upload is rejected
with the validation error `Only video files are allowed`. -/
def fileFilterAccepts (originalname mimetype : List Char) : Bool :=
  testAllowed ((extname originalname).map Char.toLower) && testAllowed mimetype

/-! ## SessionStore paths (`path.join` at component level)

`sessionDir = path.join(OUTPUT_DIR, sessionId)` and
`outputPath = path.join(sessionDir, outputFileName)`.  A path is a list of
components; `path.join` concatenates the components of its arguments and
normalises `.`, empty components and `..` (for these absolute paths a `..`
above the root vanishes). -/

/-- One step of Node path normalisation over the component stack. -/
def normStep (stack : List (List Char)) (comp : List Char) : List (List Char) :=
  if comp = [] ∨ comp = ['.'] then stack
  else if comp = ['.', '.'] then stack.dropLast
  else stack ++ [comp]

/-- Normalise a component sequence (absolute-path semantics). -/
def normalize (comps : List (List Char)) : List (List Char) :=
  comps.foldl normStep []

/-- Node `path.join` of an (already component-split) directory and a raw
string segment. -/
def jsJoin (dir : List (List Char)) (segment : List Char) : List (List Char) :=
  normalize (dir ++ splitOn '/' segment)

/-- Source line `OUTPUT_DIR = path.join('/tmp', 'output')` of the deployed variant, as
components. -/
def outputDirComps : List (List Char) := [['t', 'm', 'p'], "output".toList]

/-- Source line `const sessionDir = path.join(OUTPUT_DIR, sessionId);` -/
def sessionDirComps (sessionId : List Char) : List (List Char) :=
  jsJoin outputDirComps sessionId

/-- Source line `const outputPath = path.join(sessionDir, outputFileName);` -/
def outputPathComps (sessionId baseName : List Char) (i : Nat)
    (originalName : List Char) : List (List Char) :=
  jsJoin (sessionDirComps sessionId) (outputFileName baseName i originalName)

/-- The claim's notion of a path `p` lying strictly inside directory `dir`:
`dir` is a proper prefix of `p`'s components. -/
def strictlyInside (dir p : List (List Char)) : Bool :=
  listStartsWith dir p && dir.length < p.length

/-! ## Auxiliary specification-side definitions and concrete fixtures -/

/-- Is the optional output base name absent, empty, or whitespace-only?
(The spec's description of the inputs that fall back to `trimmed`.) -/
def isBlankName : Option (List Char) → Bool
  | none => true
  | some s => s.all isSpaceChar

/-- Concrete fixture: a file that probes to 10 s and encodes fine. -/
def fileA : InputFile := ⟨"a.mp4".toList, true, some 10, true⟩

/-- Concrete fixture: a file whose upload path no longer exists. -/
def fileBMissing : InputFile := ⟨"b.mp4".toList, false, some 10, true⟩

/-- Concrete fixture: a file that probes to 12 s and encodes fine. -/
def fileC : InputFile := ⟨"c.mov".toList, true, some 12, true⟩

/-- Concrete fixture: a file whose ffprobe call fails. -/
def fileProbeFail : InputFile := ⟨"p.mp4".toList, true, none, true⟩

/-! ## Basic lemmas about the string utilities -/

theorem listStartsWith_append {α : Type} [DecidableEq α] (p t : List α) :
    listStartsWith p (p ++ t) = true := by
  induction p with
  | nil => rfl
  | cons c cs ih => simp [listStartsWith, ih]

theorem listStartsWith_iff {α : Type} [DecidableEq α] (p s : List α) :
    listStartsWith p s = true ↔ ∃ t, s = p ++ t := by
  constructor
  · intro h
    induction p generalizing s with
    | nil => exact ⟨s, rfl⟩
    | cons c cs ih =>
      cases s with
      | nil => simp [listStartsWith] at h
      | cons d ds =>
        simp only [listStartsWith, Bool.and_eq_true, decide_eq_true_eq] at h
        obtain ⟨rfl, h2⟩ := h
        obtain ⟨t, rfl⟩ := ih ds h2
        exact ⟨t, rfl⟩
  · rintro ⟨t, rfl⟩
    exact listStartsWith_append p t

theorem containsSeq_iff {α : Type} [DecidableEq α] (pat s : List α) :
    containsSeq pat s = true ↔ ∃ l r, s = l ++ pat ++ r := by
  induction s with
  | nil =>
    simp only [containsSeq, listStartsWith_iff]
    constructor
    · rintro ⟨t, ht⟩
      exact ⟨[], t, ht⟩
    · rintro ⟨l, r, h⟩
      cases l with
      | nil => exact ⟨r, h⟩
      | cons x xs => simp at h
  | cons c cs ih =>
    simp only [containsSeq, Bool.or_eq_true, listStartsWith_iff, ih]
    constructor
    · rintro (⟨t, ht⟩ | ⟨l, r, rfl⟩)
      · exact ⟨[], t, ht⟩
      · exact ⟨c :: l, r, rfl⟩
    · rintro ⟨l, r, h⟩
      cases l with
      | nil => exact Or.inl ⟨r, h⟩
      | cons x xs =>
        simp only [List.cons_append, List.cons.injEq] at h
        exact Or.inr ⟨xs, r, h.2⟩

theorem replaceFirst_of_starts (pat rest : List Char) (hne : pat ≠ []) :
    replaceFirst pat (pat ++ rest) = rest := by
  cases pat with
  | nil => exact absurd rfl hne
  | cons c cs =>
    show replaceFirst (c :: cs) (c :: (cs ++ rest)) = rest
    rw [replaceFirst]
    have h : listStartsWith (c :: cs) (c :: (cs ++ rest)) = true := by
      simpa using listStartsWith_append (c :: cs) rest
    simp [h]

theorem splitOn_of_not_mem (sep : Char) (l : List Char) (h : sep ∉ l) :
    splitOn sep l = [l] := by
  induction l with
  | nil => rfl
  | cons c cs ih =>
    simp only [List.mem_cons, not_or] at h
    rw [splitOn, if_neg (by simpa using fun hc => h.1 hc.symm), ih h.2]

theorem splitOn_append (sep : Char) (xs ys : List Char) (h : sep ∉ xs) :
    splitOn sep (xs ++ sep :: ys) = xs :: splitOn sep ys := by
  induction xs with
  | nil => simp [splitOn]
  | cons c cs ih =>
    simp only [List.mem_cons, not_or] at h
    rw [List.cons_append, splitOn, if_neg (by simpa using fun hc => h.1 hc.symm),
      ih h.2]

theorem isDigitChar_digitChar (n : Nat) : isDigitChar (digitChar n) = true := by
  match n with
  | 0 => rfl
  | 1 => rfl
  | 2 => rfl
  | 3 => rfl
  | 4 => rfl
  | 5 => rfl
  | 6 => rfl
  | 7 => rfl
  | 8 => rfl
  | k + 9 => rfl

theorem toNat_digitChar (n : Nat) (h : n < 10) :
    (digitChar n).toNat = 48 + n := by
  interval_cases n <;> decide

theorem natReprAux_all_digits (fuel n : Nat) :
    ∀ c ∈ natReprAux fuel n, isDigitChar c = true := by
  induction fuel generalizing n with
  | zero => intro c hc; simp [natReprAux] at hc
  | succ fuel ih =>
    intro c hc
    rw [natReprAux] at hc
    split at hc
    · simp only [List.mem_singleton] at hc
      subst hc
      exact isDigitChar_digitChar n
    · rw [List.mem_append] at hc
      rcases hc with hc | hc
      · exact ih _ c hc
      · simp only [List.mem_singleton] at hc
        subst hc
        exact isDigitChar_digitChar (n % 10)

theorem natRepr_all_digits (n : Nat) : ∀ c ∈ natRepr n, isDigitChar c = true :=
  natReprAux_all_digits _ n

theorem natReprAux_ne_nil (fuel n : Nat) (h : n < fuel) :
    natReprAux fuel n ≠ [] := by
  cases fuel with
  | zero => omega
  | succ fuel =>
    rw [natReprAux]
    split
    · simp
    · simp

theorem natRepr_ne_nil (n : Nat) : natRepr n ≠ [] :=
  natReprAux_ne_nil _ n (Nat.lt_succ_self n)

theorem digitsToNat_append_digit (xs : List Char) (c : Char) :
    digitsToNat (xs ++ [c]) = digitsToNat xs * 10 + (c.toNat - 48) := by
  simp [digitsToNat, List.foldl_append]

theorem digitsToNat_natReprAux (fuel n : Nat) (h : n < fuel) :
    digitsToNat (natReprAux fuel n) = n := by
  induction fuel generalizing n with
  | zero => omega
  | succ fuel ih =>
    rw [natReprAux]
    split
    · rename_i hlt
      simp only [digitsToNat, List.foldl_cons, List.foldl_nil]
      have hv := toNat_digitChar n hlt
      omega
    · rename_i hge
      rw [digitsToNat_append_digit, ih (n / 10) (by omega)]
      have hm : n % 10 < 10 := Nat.mod_lt _ (by omega)
      have hv := toNat_digitChar (n % 10) hm
      omega

theorem digitsToNat_natRepr (n : Nat) : digitsToNat (natRepr n) = n :=
  digitsToNat_natReprAux _ n (Nat.lt_succ_self n)

theorem jsParseInt_natRepr (n : Nat) : jsParseInt (natRepr n) = some (n : Int) := by
  have hd := natRepr_all_digits n
  have hne := natRepr_ne_nil n
  have hdrop : (natRepr n).dropWhile isSpaceChar = natRepr n := by
    cases hr : natRepr n with
    | nil => rfl
    | cons c cs =>
      have hc : isDigitChar c = true := hd c (by rw [hr]; simp)
      have hcm : 48 ≤ c.toNat ∧ c.toNat ≤ 57 := by
        simpa [isDigitChar] using hc
      have hs : isSpaceChar c = false := by
        cases hb : isSpaceChar c with
        | false => rfl
        | true =>
          exfalso
          simp only [isSpaceChar, Bool.or_eq_true, Bool.and_eq_true,
            decide_eq_true_eq] at hb
          omega
      rw [List.dropWhile_cons, hs]
      simp
  have htake : (natRepr n).takeWhile isDigitChar = natRepr n :=
    List.takeWhile_eq_self_iff.mpr hd
  have hparse : jsParseInt.leadingNat (natRepr n) = some n := by
    rw [jsParseInt.leadingNat, htake, if_neg hne, digitsToNat_natRepr]
  cases hr : natRepr n with
  | nil => exact absurd hr hne
  | cons c cs =>
    have hc : isDigitChar c = true := hd c (by rw [hr]; simp)
    have hcm : 48 ≤ c.toNat ∧ c.toNat ≤ 57 := by
      simpa [isDigitChar] using hc
    have hcne1 : c ≠ '-' := by
      intro hcc
      subst hcc
      revert hcm
      decide
    have hcne2 : c ≠ '+' := by
      intro hcc
      subst hcc
      revert hcm
      decide
    rw [hr] at hdrop hparse
    simp [jsParseInt, hdrop, hcne1, hcne2, hparse]

/-! ## Lemmas: splitOn components, extname, normalisation -/

theorem splitOn_ne_nil (sep : Char) (l : List Char) : splitOn sep l ≠ [] := by
  cases l with
  | nil => simp [splitOn]
  | cons c cs =>
    rw [splitOn]
    split
    · simp
    · cases h : splitOn sep cs <;> simp

theorem getLastD_mem {α : Type} (l : List α) (d : α) (h : l ≠ []) :
    l.getLastD d ∈ l := by
  cases l with
  | nil => exact absurd rfl h
  | cons x xs =>
    rw [List.getLastD_eq_getLast?, List.getLast?_eq_getLast _ (by simp)]
    simp only [Option.getD_some]
    exact List.getLast_mem _

theorem mem_of_mem_splitOn (sep : Char) (l : List Char) :
    ∀ p ∈ splitOn sep l, ∀ c ∈ p, c ∈ l := by
  induction l with
  | nil =>
    intro p hp c hc
    simp [splitOn] at hp
    subst hp
    simp at hc
  | cons x xs ih =>
    intro p hp c hc
    rw [splitOn] at hp
    split at hp
    · rw [List.mem_cons] at hp
      rcases hp with hp | hp
      · subst hp; simp at hc
      · exact List.mem_cons_of_mem _ (ih p hp c hc)
    · rename_i hxsep
      cases hsp : splitOn sep xs with
      | nil => exact absurd hsp (splitOn_ne_nil sep xs)
      | cons q qs =>
        rw [hsp] at hp
        rw [List.mem_cons] at hp
        rcases hp with hp | hp
        · subst hp
          rw [List.mem_cons] at hc
          rcases hc with hc | hc
          · simp [hc]
          · exact List.mem_cons_of_mem _ (ih q (by rw [hsp]; simp) c hc)
        · exact List.mem_cons_of_mem _
            (ih p (by rw [hsp]; exact List.mem_cons_of_mem _ hp) c hc)

theorem sep_not_mem_splitOn (sep : Char) (l : List Char) :
    ∀ p ∈ splitOn sep l, sep ∉ p := by
  induction l with
  | nil =>
    intro p hp
    simp [splitOn] at hp
    subst hp
    simp
  | cons x xs ih =>
    intro p hp
    rw [splitOn] at hp
    split at hp
    · rw [List.mem_cons] at hp
      rcases hp with hp | hp
      · subst hp; simp
      · exact ih p hp
    · rename_i hxsep
      cases hsp : splitOn sep xs with
      | nil => exact absurd hsp (splitOn_ne_nil sep xs)
      | cons q qs =>
        rw [hsp] at hp
        rw [List.mem_cons] at hp
        rcases hp with hp | hp
        · subst hp
          intro hm
          rw [List.mem_cons] at hm
          rcases hm with hm | hm
          · exact hxsep hm.symm
          · exact ih q (by rw [hsp]; simp) hm
        · exact ih p (by rw [hsp]; exact List.mem_cons_of_mem _ hp)

theorem lastComponent_no_slash (name : List Char) : '/' ∉ lastComponent name :=
  sep_not_mem_splitOn '/' name _
    (getLastD_mem _ _ (splitOn_ne_nil '/' name))

theorem mem_lastComponent (name : List Char) :
    ∀ c ∈ lastComponent name, c ∈ name :=
  mem_of_mem_splitOn '/' name _
    (getLastD_mem _ _ (splitOn_ne_nil '/' name))

theorem lastIndexOf_eq_none (c : Char) (l : List Char) (h : c ∉ l) :
    lastIndexOf c l = none := by
  induction l with
  | nil => rfl
  | cons x xs ih =>
    simp only [List.mem_cons, not_or] at h
    rw [lastIndexOf, ih h.2]
    have hx : ¬ x = c := fun hc => h.1 (Eq.symm hc)
    simp [hx]

theorem extname_of_no_dot (name : List Char) (h : '.' ∉ name) :
    extname name = [] := by
  have hdot : '.' ∉ lastComponent name := fun hc => h (mem_lastComponent name _ hc)
  rw [extname]
  split
  · rfl
  · rw [lastIndexOf_eq_none _ _ hdot]

theorem extname_no_slash (name : List Char) : '/' ∉ extname name := by
  rw [extname]
  split
  · simp
  · split
    · simp
    · simp
    · intro hm
      exact lastComponent_no_slash name (List.mem_of_mem_drop hm)

theorem originalExtOf_no_slash (name : List Char) : '/' ∉ originalExtOf name := by
  rw [originalExtOf]
  split
  · decide
  · exact extname_no_slash name

theorem slash_not_mem_natRepr (n : Nat) : '/' ∉ natRepr n := by
  intro hm
  have := natRepr_all_digits n _ hm
  revert this
  decide

theorem dash_not_mem_natRepr (n : Nat) : '-' ∉ natRepr n := by
  intro hm
  have := natRepr_all_digits n _ hm
  revert this
  decide

theorem outputFileName_no_slash (b : List Char) (i : Nat) (name : List Char)
    (hb : '/' ∉ b) : '/' ∉ outputFileName b i name := by
  intro hm
  rw [outputFileName] at hm
  simp only [List.mem_append, List.mem_cons] at hm
  rcases hm with (hm | hm | hm) | hm
  · exact hb hm
  · exact absurd hm (by decide)
  · exact slash_not_mem_natRepr _ hm
  · exact originalExtOf_no_slash name hm

theorem underscore_mem_outputFileName (b : List Char) (i : Nat)
    (name : List Char) : '_' ∈ outputFileName b i name := by
  rw [outputFileName]
  rw [List.mem_append]
  exact Or.inl (by rw [List.mem_append]; exact Or.inr (by simp))

theorem outputFileName_normal (b : List Char) (i : Nat) (name : List Char) :
    outputFileName b i name ≠ [] ∧ outputFileName b i name ≠ ['.'] ∧
      outputFileName b i name ≠ ['.', '.'] := by
  have hu := underscore_mem_outputFileName b i name
  refine ⟨?_, ?_, ?_⟩ <;> intro he <;> rw [he] at hu <;> revert hu <;> decide

theorem normStep_push (stack : List (List Char)) (c : List Char)
    (h1 : c ≠ []) (h2 : c ≠ ['.']) (h3 : c ≠ ['.', '.']) :
    normStep stack c = stack ++ [c] := by
  rw [normStep, if_neg (by simp [h1, h2]), if_neg h3]

theorem normalize_append_single (l : List (List Char)) (c : List Char) :
    normalize (l ++ [c]) = normStep (normalize l) c := by
  simp [normalize, List.foldl_append]

theorem foldl_normStep_of_normal (l : List (List Char)) :
    ∀ acc, (∀ x ∈ l, x ≠ [] ∧ x ≠ ['.'] ∧ x ≠ ['.', '.']) →
      List.foldl normStep acc l = acc ++ l := by
  induction l with
  | nil => intro acc _; simp
  | cons c cs ih =>
    intro acc h
    have hc := h c (by simp)
    rw [List.foldl_cons, normStep_push _ _ hc.1 hc.2.1 hc.2.2,
      ih _ (fun x hx => h x (by simp [hx]))]
    simp

theorem mem_normStep_normal (stack : List (List Char)) (c x : List Char)
    (hstack : ∀ y ∈ stack, y ≠ [] ∧ y ≠ ['.'] ∧ y ≠ ['.', '.'])
    (hx : x ∈ normStep stack c) :
    x ≠ [] ∧ x ≠ ['.'] ∧ x ≠ ['.', '.'] := by
  rw [normStep] at hx
  split at hx
  · exact hstack x hx
  · split at hx
    · exact hstack x ((List.dropLast_sublist stack).mem hx)
    · rename_i hne hdd
      rw [List.mem_append] at hx
      rcases hx with hx | hx
      · exact hstack x hx
      · simp only [List.mem_singleton] at hx
        subst hx
        simp only [not_or] at hne
        exact ⟨hne.1, hne.2, hdd⟩

theorem mem_normalize_normal (l : List (List Char)) :
    ∀ x ∈ normalize l, x ≠ [] ∧ x ≠ ['.'] ∧ x ≠ ['.', '.'] := by
  suffices h : ∀ acc, (∀ y ∈ acc, y ≠ [] ∧ y ≠ ['.'] ∧ y ≠ ['.', '.']) →
      ∀ x ∈ List.foldl normStep acc l, x ≠ [] ∧ x ≠ ['.'] ∧ x ≠ ['.', '.'] by
    exact h [] (by simp)
  induction l with
  | nil => intro acc hacc x hx; exact hacc x hx
  | cons c cs ih =>
    intro acc hacc x hx
    rw [List.foldl_cons] at hx
    exact ih _ (fun y hy => mem_normStep_normal acc c y hacc hy) x hx

theorem normalize_idem (l : List (List Char)) :
    normalize (normalize l) = normalize l := by
  have h := foldl_normStep_of_normal (normalize l) [] (mem_normalize_normal l)
  simpa [normalize] using h

/-! ## Lemmas: jsTrim -/

theorem jsTrim_eq_nil_of_all_space (s : List Char)
    (h : ∀ c ∈ s, isSpaceChar c = true) : jsTrim s = [] := by
  rw [jsTrim, List.dropWhile_eq_nil_iff.mpr h]
  rfl

theorem mem_dropWhile_of_not (p : Char → Bool) (s : List Char) (c : Char)
    (hc : c ∈ s) (hp : p c = false) : c ∈ s.dropWhile p := by
  induction s with
  | nil => simp at hc
  | cons x xs ih =>
    rw [List.mem_cons] at hc
    rw [List.dropWhile_cons]
    by_cases hx : p x = true
    · rcases hc with hc | hc
      · subst hc; rw [hp] at hx; exact absurd hx (by simp)
      · simp only [hx, if_true]
        exact ih hc
    · simp only [Bool.not_eq_true] at hx
      simp only [hx]
      rw [if_neg (by simp)]
      rw [List.mem_cons]
      exact hc

theorem jsTrim_ne_nil (s : List Char) (h : s.all isSpaceChar = false) :
    jsTrim s ≠ [] := by
  intro hnil
  have h' : ¬ ∀ c ∈ s, isSpaceChar c = true := by
    intro hall
    rw [List.all_eq_true.mpr hall] at h
    simp at h
  push_neg at h'
  obtain ⟨c, hc, hcs'⟩ := h'
  have hcs : isSpaceChar c = false := by
    cases hval : isSpaceChar c
    · rfl
    · exact absurd hval hcs'
  have hc1 : c ∈ s.dropWhile isSpaceChar := mem_dropWhile_of_not _ s c hc hcs
  rw [jsTrim] at hnil
  have h2 : (s.dropWhile isSpaceChar).reverse.dropWhile isSpaceChar = [] := by
    have := congrArg List.reverse hnil
    simpa using this
  have h3 := List.dropWhile_eq_nil_iff.mp h2 c (by simpa using hc1)
  rw [hcs] at h3
  exact absurd h3 (by simp)

/-! ## Lemmas: the batch loop -/

theorem processFilesAux_error_iff (trimStart trimEnd : ℚ) (b : List Char) :
    ∀ (files : List InputFile) (i : Nat) (acc : List ProcessedFile),
      (∃ e, processFilesAux trimStart trimEnd b i files acc = .error e) ↔
        files.any (hardFails trimStart trimEnd) = true := by
  intro files
  induction files with
  | nil =>
    intro i acc
    simp [processFilesAux]
  | cons f rest ih =>
    intro i acc
    by_cases hup : f.uploadExists = false
    · have hhf : hardFails trimStart trimEnd f = false := by
        simp [hardFails, hup]
      rw [List.any_cons, hhf]
      simp only [Bool.false_or]
      rw [show processFilesAux trimStart trimEnd b i (f :: rest) acc =
          processFilesAux trimStart trimEnd b (i + 1) rest acc by
        rw [processFilesAux, if_pos hup]]
      exact ih (i + 1) acc
    · have hup' : f.uploadExists = true := by
        revert hup
        cases f.uploadExists <;> simp
      cases hpr : f.probeResult with
      | none =>
        have hhf : hardFails trimStart trimEnd f = true := by
          simp [hardFails, hup', hpr]
        rw [List.any_cons, hhf]
        simp only [Bool.true_or]
        rw [show processFilesAux trimStart trimEnd b i (f :: rest) acc =
            .error .probeError by
          rw [processFilesAux, if_neg hup]
          rw [hpr]]
        simp
      | some d =>
        cases hpl : trimPlanEndTime d trimStart trimEnd with
        | none =>
          have hhf : hardFails trimStart trimEnd f = false := by
            simp [hardFails, hup', hpr, hpl]
          rw [List.any_cons, hhf]
          simp only [Bool.false_or]
          rw [show processFilesAux trimStart trimEnd b i (f :: rest) acc =
              processFilesAux trimStart trimEnd b (i + 1) rest acc by
            rw [processFilesAux, if_neg hup]
            rw [hpr]
            simp [hpl]]
          exact ih (i + 1) acc
        | some w =>
          cases hen : f.encodeOk with
          | true =>
            have hhf : hardFails trimStart trimEnd f = false := by
              simp [hardFails, hup', hpr, hpl, hen]
            rw [List.any_cons, hhf]
            simp only [Bool.false_or]
            rw [show processFilesAux trimStart trimEnd b i (f :: rest) acc =
                processFilesAux trimStart trimEnd b (i + 1) rest
                  (acc ++ [⟨f.originalName, outputFileName b i f.originalName⟩]) by
              rw [processFilesAux, if_neg hup]
              rw [hpr]
              simp [hpl, hen]]
            exact ih (i + 1) _
          | false =>
            have hhf : hardFails trimStart trimEnd f = true := by
              simp [hardFails, hup', hpr, hpl, hen]
            rw [List.any_cons, hhf]
            simp only [Bool.true_or]
            rw [show processFilesAux trimStart trimEnd b i (f :: rest) acc =
                .error .encodeError by
              rw [processFilesAux, if_neg hup]
              rw [hpr]
              simp [hpl, hen]]
            simp

/-! ## Lemmas: the output path -/

theorem outputPath_appends (sessionId b : List Char) (i : Nat)
    (name : List Char) (hb : '/' ∉ b) :
    outputPathComps sessionId b i name =
      sessionDirComps sessionId ++ [outputFileName b i name] := by
  have hofn := outputFileName_no_slash b i name hb
  have hnorm := outputFileName_normal b i name
  rw [outputPathComps, jsJoin, splitOn_of_not_mem _ _ hofn,
    normalize_append_single]
  have hsd : normalize (sessionDirComps sessionId) = sessionDirComps sessionId := by
    rw [sessionDirComps, jsJoin]
    exact normalize_idem _
  rw [hsd, normStep_push _ _ hnorm.1 hnorm.2.1 hnorm.2.2]

/-! ## Claim theorems -/

/-- C1 (amended): inside the batch loop only a missing upload path or an
infeasible trim is contained as a per-file skip; a MediaProbe failure or a
TrimExecutor failure on a file that reaches that stage escapes the loop and
fails the whole request.  Precisely: the request errors out (500) iff some
file of the batch hard-fails in this sense; when no file hard-fails the
request completes with a result list, however many files were skipped. -/
theorem processFiles_error_iff_hard_failure (trimStart trimEnd : ℚ)
    (b : List Char) (files : List InputFile) :
    (∃ e, processFiles trimStart trimEnd b files = .error e) ↔
      files.any (hardFails trimStart trimEnd) = true :=
  processFilesAux_error_iff trimStart trimEnd b files 0 []

/-- C1 counterexample: a probe failure on the second file does not merely
omit that file — it aborts the whole request with an error, although the
first file had already been processed successfully. -/
theorem processFiles_probe_failure_aborts_request :
    processFiles 1 1 "trimmed".toList [fileA, fileProbeFail] =
      Except.error BatchError.probeError := by
  have hplan : trimPlanEndTime 10 1 1 = some (1, 9) := by
    simp only [trimPlanEndTime]
    norm_num
  simp [processFiles, processFilesAux, fileA, fileProbeFail, hplan]

/-- C3 (amended): in a three-file batch where the middle file is skipped
(here: its upload path no longer exists) while the first and third succeed,
the result list is exactly the two successes in order, named from their
1-based batch positions `_1` and `_3` — the skipped position 2 leaves a
permanent numbering gap. -/
theorem processFiles_skip_preserves_numbering_gap (trimStart trimEnd : ℚ)
    (b : List Char) (A B C : InputFile) (dA dC : ℚ)
    (hA1 : A.uploadExists = true) (hA2 : A.probeResult = some dA)
    (hA3 : trimPlanEndTime dA trimStart trimEnd ≠ none)
    (hA4 : A.encodeOk = true)
    (hB : B.uploadExists = false)
    (hC1 : C.uploadExists = true) (hC2 : C.probeResult = some dC)
    (hC3 : trimPlanEndTime dC trimStart trimEnd ≠ none)
    (hC4 : C.encodeOk = true) :
    processFiles trimStart trimEnd b [A, B, C] =
      .ok [⟨A.originalName, outputFileName b 0 A.originalName⟩,
        ⟨C.originalName, outputFileName b 2 C.originalName⟩] := by
  obtain ⟨wA, hwA⟩ : ∃ w, trimPlanEndTime dA trimStart trimEnd = some w := by
    cases h : trimPlanEndTime dA trimStart trimEnd
    · exact absurd h hA3
    · exact ⟨_, rfl⟩
  obtain ⟨wC, hwC⟩ : ∃ w, trimPlanEndTime dC trimStart trimEnd = some w := by
    cases h : trimPlanEndTime dC trimStart trimEnd
    · exact absurd h hC3
    · exact ⟨_, rfl⟩
  simp [processFiles, processFilesAux, hA1, hA2, hwA, hA4, hB, hC1, hC2,
    hwC, hC4]

/-- C3 witness: concrete three-file batch with the middle upload missing. -/
theorem processFiles_skip_preserves_numbering_gap_witness :
    processFiles 1 1 "clip".toList [fileA, fileBMissing, fileC] =
      .ok [⟨"a.mp4".toList, outputFileName "clip".toList 0 "a.mp4".toList⟩,
        ⟨"c.mov".toList, outputFileName "clip".toList 2 "c.mov".toList⟩] :=
  processFiles_skip_preserves_numbering_gap 1 1 "clip".toList
    fileA fileBMissing fileC 10 12 rfl rfl
    (by simp only [trimPlanEndTime]; rw [if_neg (by norm_num)]; simp) rfl rfl
    rfl rfl
    (by simp only [trimPlanEndTime]; rw [if_neg (by norm_num)]; simp) rfl

/-- C3 counterexample: when the middle file fails probing (the failure mode
the claim names), the result is not the gap-preserving two-element list —
the whole request errors out. -/
theorem processFiles_probe_failure_breaks_ordering :
    processFiles 1 1 "clip".toList [fileA, fileProbeFail, fileC] =
      Except.error BatchError.probeError := by
  have hplan : trimPlanEndTime 10 1 1 = some (1, 9) := by
    simp only [trimPlanEndTime]
    norm_num
  simp [processFiles, processFilesAux, fileA, fileProbeFail, hplan]

/-- C2: for every total duration and cut amounts `S, E ≥ 0`, both deployed
feasibility checks skip the file as too short exactly when `D - E ≤ S`, and
otherwise the planned window is `[S, D - E)`. -/
theorem trimPlan_rejects_iff_too_short (D S E : ℚ) (hS : 0 ≤ S)
    (hE : 0 ≤ E) :
    (trimPlanEndTime D S E =
        if D - E ≤ S then none else some (S, D - E)) ∧
      (trimPlanNewDuration D S E =
        if D - E ≤ S then none else some (S, D - E)) := by
  constructor
  · rfl
  · simp only [trimPlanNewDuration]
    by_cases h : D - E ≤ S
    · rw [if_pos (by linarith), if_pos h]
    · rw [if_neg (fun h2 => h (by linarith)), if_neg h]
      have he : S + (D - S - E) = D - E := by ring
      rw [he]

/-- C2 witness: duration 10, cuts 1 and 1. -/
theorem trimPlan_rejects_iff_too_short_witness :
    ((0 : ℚ) ≤ 1) ∧
      ((trimPlanEndTime 10 1 1 =
          if (10 : ℚ) - 1 ≤ 1 then none else some (1, 10 - 1)) ∧
        (trimPlanNewDuration 10 1 1 =
          if (10 : ℚ) - 1 ≤ 1 then none else some (1, 10 - 1))) :=
  ⟨by norm_num, trimPlan_rejects_iff_too_short 10 1 1 (by norm_num) (by norm_num)⟩

/-- C6: the two deployed executor variants are equivalent: the absolute
end-time form (feasibility `D - E ≤ S`) and the derived output-duration
form (feasibility `D - S - E ≤ 0`) accept exactly the same inputs and
select the same retained interval `[S, D - E)`. -/
theorem trimPlan_variants_agree (D S E : ℚ) :
    trimPlanEndTime D S E = trimPlanNewDuration D S E ∧
      trimPlanEndTime D S E =
        (if D - E ≤ S then none else some (S, D - E)) := by
  constructor
  · simp only [trimPlanEndTime, trimPlanNewDuration]
    by_cases h : D - E ≤ S
    · rw [if_pos h, if_pos (by linarith)]
    · rw [if_neg h, if_neg (fun h2 => h (by linarith))]
      have he : S + (D - S - E) = D - E := by ring
      rw [he]
  · rfl

/-- C4: a malformed range header (present, `bytes=` form but with a
non-numeric start) is not served like an absent header: the handler still
answers 206, with a `NaN` start and a `NaN` content length, instead of the
full-file 200 the spec prescribes. -/
theorem malformed_range_served_as_206 :
    serveOutput 1000 (some ("bytes=abc".toList)) =
      .rangeSlice none (some 999) 1000 none true := by decide

/-- C5: on an existing stored file of `N` bytes, `bytes=a-b` with
`0 ≤ a ≤ b ≤ N - 1` yields a 206 slice of exactly `b - a + 1` bytes with
`Content-Range: bytes a-b/N` and `Accept-Ranges: bytes`; no range header
yields a 200 full-file attachment of declared length `N`; and `bytes=a-`
defaults the end to `N - 1`. -/
theorem range_request_served_exactly (N a b : Nat) (hab : a ≤ b)
    (hbN : b + 1 ≤ N) :
    serveOutput N (some (mkRangeHeader a b)) =
      .rangeSlice (some a) (some b) N (some ((b : Int) - a + 1)) true ∧
      serveOutput N none = .fullFile N true ∧
      serveOutput N (some (mkOpenRangeHeader a)) =
        .rangeSlice (some a) (some ((N : Int) - 1)) N
          (some ((N : Int) - 1 - a + 1)) true := by
  have hne : mkRangeHeader a b ≠ [] := by
    rw [mkRangeHeader]
    exact List.append_ne_nil_of_left_ne_nil
      (List.append_ne_nil_of_left_ne_nil (by decide) _) _
  have hne2 : mkOpenRangeHeader a ≠ [] := by
    rw [mkOpenRangeHeader]
    exact List.append_ne_nil_of_left_ne_nil
      (List.append_ne_nil_of_left_ne_nil (by decide) _) _
  have hrep : replaceFirst "bytes=".toList (mkRangeHeader a b) =
      natRepr a ++ '-' :: natRepr b := by
    rw [mkRangeHeader, List.append_assoc]
    exact replaceFirst_of_starts _ _ (by decide)
  have hrep2 : replaceFirst "bytes=".toList (mkOpenRangeHeader a) =
      natRepr a ++ ['-'] := by
    rw [mkOpenRangeHeader, List.append_assoc]
    exact replaceFirst_of_starts _ _ (by decide)
  have hsplit : splitOn '-' (natRepr a ++ '-' :: natRepr b) =
      [natRepr a, natRepr b] := by
    rw [splitOn_append _ _ _ (dash_not_mem_natRepr a),
      splitOn_of_not_mem _ _ (dash_not_mem_natRepr b)]
  have hsplit2 : splitOn '-' (natRepr a ++ ['-']) = [natRepr a, []] := by
    have h := splitOn_append '-' (natRepr a) [] (dash_not_mem_natRepr a)
    simpa [splitOn] using h
  refine ⟨?_, rfl, ?_⟩
  · simp only [serveOutput, if_neg hne, hrep, hsplit]
    simp only [List.getD_cons_zero, List.getD_cons_succ]
    rw [if_neg (natRepr_ne_nil b), jsParseInt_natRepr a, jsParseInt_natRepr b]
    simp [jsSub, jsAdd]
  · simp only [serveOutput, if_neg hne2, hrep2, hsplit2]
    simp only [List.getD_cons_zero, List.getD_cons_succ]
    rw [jsParseInt_natRepr a]
    simp [jsSub, jsAdd]

/-- C5 witness: the spec's own example, `bytes=0-99` of a 1000-byte file. -/
theorem range_request_served_exactly_witness :
    (0 ≤ 99 ∧ 99 + 1 ≤ 1000) ∧
      (serveOutput 1000 (some (mkRangeHeader 0 99)) =
          .rangeSlice (some 0) (some 99) 1000 (some ((99 : Int) - 0 + 1)) true ∧
        serveOutput 1000 none = .fullFile 1000 true ∧
        serveOutput 1000 (some (mkOpenRangeHeader 0)) =
          .rangeSlice (some 0) (some ((1000 : Int) - 1)) 1000
            (some ((1000 : Int) - 1 - 0 + 1)) true) :=
  ⟨⟨by decide, by decide⟩,
    range_request_served_exactly 1000 0 99 (by decide) (by decide)⟩

/-- C7 (amended): the upload filter accepts a file exactly when some
allow-list word (`mp4`, `mov`, `avi`, `mkv`, `webm`) occurs as a contiguous
substring of the lowercased extension AND some allow-list word occurs as a
contiguous substring of the content type — substring containment, not
membership in the allow-list. -/
theorem fileFilter_accepts_iff_substring (n m : List Char) :
    fileFilterAccepts n m = true ↔
      ((∃ w ∈ allowedTypeWords,
          ∃ l r, (extname n).map Char.toLower = l ++ w ++ r) ∧
        (∃ w ∈ allowedTypeWords, ∃ l r, m = l ++ w ++ r)) := by
  rw [fileFilterAccepts, Bool.and_eq_true, testAllowed, testAllowed,
    List.any_eq_true, List.any_eq_true]
  constructor
  · rintro ⟨⟨w1, hw1, hc1⟩, ⟨w2, hw2, hc2⟩⟩
    exact ⟨⟨w1, hw1, (containsSeq_iff _ _).mp hc1⟩,
      ⟨w2, hw2, (containsSeq_iff _ _).mp hc2⟩⟩
  · rintro ⟨⟨w1, hw1, hc1⟩, ⟨w2, hw2, hc2⟩⟩
    exact ⟨⟨w1, hw1, (containsSeq_iff _ _).mpr hc1⟩,
      ⟨w2, hw2, (containsSeq_iff _ _).mpr hc2⟩⟩

/-- C7 counterexample: `clip.mp4v` with content type `video/mp4` is
accepted, although neither the extension `mp4v` nor the content type
`video/mp4` is a member of the allow-list. -/
theorem fileFilter_accepts_nonallowlisted :
    fileFilterAccepts "clip.mp4v".toList "video/mp4".toList = true ∧
      extname "clip.mp4v".toList = ".mp4v".toList ∧
      "mp4v".toList ∉ allowedTypeWords ∧
      "video/mp4".toList ∉ allowedTypeWords := by decide

/-- C8 (amended): for every session identifier and every output base name
containing no path separator, every output path the batch constructs is the
session directory extended by exactly one further component — it lies
strictly inside the session's own output directory. -/
theorem outputPath_inside_sessionDir (sessionId b : List Char) (i : Nat)
    (name : List Char) (hb : '/' ∉ b) :
    outputPathComps sessionId b i name =
        sessionDirComps sessionId ++ [outputFileName b i name] ∧
      strictlyInside (sessionDirComps sessionId)
        (outputPathComps sessionId b i name) = true := by
  have h := outputPath_appends sessionId b i name hb
  refine ⟨h, ?_⟩
  rw [h, strictlyInside, listStartsWith_append]
  simp

/-- C8 witness: session `abc`, base name `clip`. -/
theorem outputPath_inside_sessionDir_witness :
    ('/' ∉ "clip".toList) ∧
      (outputPathComps "abc".toList "clip".toList 0 "a.mp4".toList =
          sessionDirComps "abc".toList ++
            [outputFileName "clip".toList 0 "a.mp4".toList] ∧
        strictlyInside (sessionDirComps "abc".toList)
          (outputPathComps "abc".toList "clip".toList 0 "a.mp4".toList) =
          true) :=
  ⟨by decide,
    outputPath_inside_sessionDir "abc".toList "clip".toList 0
      "a.mp4".toList (by decide)⟩

/-- C8 counterexample: the base name `../escape` drives the output path out
of the session directory (it resolves to `/tmp/output/escape_1.mp4`, a
sibling of the session directory `/tmp/output/s`). -/
theorem outputPath_escapes_sessionDir :
    strictlyInside (sessionDirComps "s".toList)
        (outputPathComps "s".toList "../escape".toList 0 "a.mp4".toList) =
        false ∧
      outputPathComps "s".toList "../escape".toList 0 "a.mp4".toList =
        [['t', 'm', 'p'], "output".toList, "escape_1.mp4".toList] := by decide

/-- C9: the base name used for output filenames is the default `trimmed`
exactly when the supplied name is absent, empty or whitespace-only, and the
whitespace-trimmed supplied value otherwise. -/
theorem baseName_default_trimmed (o : Option (List Char)) :
    computeBaseName o =
      if isBlankName o then "trimmed".toList else jsTrim (o.getD []) := by
  cases o with
  | none => rfl
  | some s =>
    by_cases hnil : s = []
    · subst hnil
      rfl
    · simp only [computeBaseName, if_neg hnil]
      cases hb : s.all isSpaceChar with
      | true =>
        have h1 : jsTrim s = [] :=
          jsTrim_eq_nil_of_all_space s (List.all_eq_true.mp hb)
        rw [h1]
        simp [isBlankName, hb]
      | false =>
        have h1 : jsTrim s ≠ [] := jsTrim_ne_nil s hb
        rw [if_neg h1]
        simp [isBlankName, hb]

/-- C10: the generated output filename keeps the original extension
verbatim when `path.extname` finds one, and falls back to `.mp4` whenever
the original filename has no extension, that is whenever `path.extname`
returns the empty string (dot-free names, hidden files such as `.bashrc`,
the special names `.` and `..`). -/
theorem outputFileName_extension_policy (b : List Char) (i : Nat)
    (name : List Char) :
    (extname name = [] →
        outputFileName b i name =
          b ++ '_' :: natRepr (i + 1) ++ ".mp4".toList) ∧
      (extname name ≠ [] →
        outputFileName b i name =
          b ++ '_' :: natRepr (i + 1) ++ extname name) := by
  constructor
  · intro h
    rw [outputFileName, originalExtOf, if_pos h]
  · intro h
    rw [outputFileName, originalExtOf, if_neg h]

/-- C10 witness: `.bashrc` (a dotted name that still has no extension)
falls back to `.mp4`; `clip.mov` keeps `.mov`. -/
theorem outputFileName_extension_policy_witness :
    (extname ".bashrc".toList = [] ∧
        outputFileName "b".toList 0 ".bashrc".toList =
          "b".toList ++ '_' :: natRepr 1 ++ ".mp4".toList) ∧
      (extname "clip.mov".toList ≠ [] ∧
        outputFileName "b".toList 2 "clip.mov".toList =
          "b".toList ++ '_' :: natRepr 3 ++ extname "clip.mov".toList) :=
  ⟨⟨by decide,
      (outputFileName_extension_policy "b".toList 0 ".bashrc".toList).1
        (by decide)⟩,
    ⟨by decide,
      (outputFileName_extension_policy "b".toList 2 "clip.mov".toList).2
        (by decide)⟩⟩

end VideoTrimmer
